import Mathlib

/-!
Verification of the BEKK multivariate GARCH implementation:
parameter codec, covariance recursion, likelihood evaluator and
the stationary-covariance fixed-point loop.

The parameter codec (`convert_theta_to_abc`, `convert_theta_to_ab`,
`convert_abc_to_theta`) is embedded generically over the entry type;
shape failures that numpy reports as exceptions are modelled as `none`.
-/

open Matrix

namespace BEKK

theorem pos_of_lt_mul_self {n k : ℕ} (h : k < n * n) : 0 < n :=
  Nat.pos_of_ne_zero fun h0 => by subst h0; simp at h

section Codec

variable {α : Type}

/-- Row-major flattening of an `n × n` matrix, as `numpy.ndarray.flatten` produces. -/
def flattenM {n : ℕ} (A : Matrix (Fin n) (Fin n) α) : List α :=
  List.ofFn fun k : Fin (n * n) =>
    A ⟨k.val / n, Nat.div_lt_of_lt_mul k.isLt⟩
      ⟨k.val % n, Nat.mod_lt _ (pos_of_lt_mul_self k.isLt)⟩

/-- `np.tril_indices(n)`: the lower-triangular index pairs `(i, j)`, `j ≤ i`,
in row-major order. -/
def trilIdx (n : ℕ) : List (Fin n × Fin n) :=
  (List.finRange n).flatMap fun i =>
    (List.finRange (i.val + 1)).map fun j =>
      (i, ⟨j.val, lt_of_le_of_lt (Nat.le_of_lt_succ j.isLt) i.isLt⟩)

/-- `theta[...].reshape([n, n])`: row-major reshape of a flat slice; numpy raises
when the element count is wrong, modelled as `none`. -/
def reshape [Zero α] (l : List α) (n : ℕ) : Option (Matrix (Fin n) (Fin n) α) :=
  if l.length = n * n then some (Matrix.of fun i j => l.getD (i.val * n + j.val) 0)
  else none

/-- A single fancy-index assignment `M[p] = v`. -/
def setEntry {n : ℕ} (M : Matrix (Fin n) (Fin n) α) (p : Fin n × Fin n) (v : α) :
    Matrix (Fin n) (Fin n) α :=
  Matrix.of fun i j => if (i, j) = p then v else M i j

/-- Sequential fancy-index assignment along a list of position/value pairs. -/
def writeList {n : ℕ} (M : Matrix (Fin n) (Fin n) α)
    (l : List ((Fin n × Fin n) × α)) : Matrix (Fin n) (Fin n) α :=
  l.foldl (fun N pv => setEntry N pv.1 pv.2) M

/-- `C = np.zeros((n, n)); C[np.tril_indices(n)] = vals`.  numpy accepts `vals`
when its length equals the number of positions, or equals 1 (in which case the
single value is broadcast to every position); any other length raises, modelled
as `none`. -/
def setTril [Zero α] (vals : List α) (n : ℕ) : Option (Matrix (Fin n) (Fin n) α) :=
  if vals.length = (trilIdx n).length then
    some (writeList 0 ((trilIdx n).zip vals))
  else if vals.length = 1 then
    some (writeList 0 ((trilIdx n).zip (List.replicate (trilIdx n).length (vals.getD 0 0))))
  else none

/-- `convert_theta_to_abc(theta, n)`: slice `θ` into `A` (first `n²` entries,
row-major), `B` (next `n²`) and the lower-triangular entries of `C`. -/
def convert_theta_to_abc [Zero α] (θ : List α) (n : ℕ) :
    Option (Matrix (Fin n) (Fin n) α × Matrix (Fin n) (Fin n) α × Matrix (Fin n) (Fin n) α) :=
  match reshape (θ.take (n * n)) n, reshape ((θ.drop (n * n)).take (n * n)) n,
      setTril (θ.drop (n * n + n * n)) n with
  | some A, some B, some C => some (A, B, C)
  | _, _, _ => none

/-- `convert_theta_to_ab(theta, n)`: the reduced decoder used in estimation mode. -/
def convert_theta_to_ab [Zero α] (θ : List α) (n : ℕ) :
    Option (Matrix (Fin n) (Fin n) α × Matrix (Fin n) (Fin n) α) :=
  match reshape (θ.take (n * n)) n, reshape ((θ.drop (n * n)).take (n * n)) n with
  | some A, some B => some (A, B)
  | _, _ => none

/-- `convert_abc_to_theta(A, B, C)`: concatenation of the row-major flattenings
of `A` and `B` with the lower-triangular entries of `C` in `trilIdx` order. -/
def convert_abc_to_theta {n : ℕ} (A B C : Matrix (Fin n) (Fin n) α) : List α :=
  flattenM A ++ flattenM B ++ (trilIdx n).map fun p => C p.1 p.2

@[simp] theorem length_flattenM {n : ℕ} (A : Matrix (Fin n) (Fin n) α) :
    (flattenM A).length = n * n := by
  simp [flattenM]

theorem flattenM_getD {n : ℕ} (A : Matrix (Fin n) (Fin n) α) (i j : Fin n) (z : α) :
    (flattenM A).getD (i.val * n + j.val) z = A i j := by
  have hlt : i.val * n + j.val < n * n := by
    calc i.val * n + j.val < i.val * n + n := by omega
    _ = (i.val + 1) * n := by ring
    _ ≤ n * n := Nat.mul_le_mul_right n i.isLt
  have hlen : i.val * n + j.val < (flattenM A).length := by simpa using hlt
  have hdiv : (i.val * n + j.val) / n = i.val := by
    rw [Nat.add_comm, Nat.add_mul_div_right _ _ (pos_of_lt_mul_self hlt),
      Nat.div_eq_of_lt j.isLt, Nat.zero_add]
  have hmod : (i.val * n + j.val) % n = j.val := by
    rw [Nat.add_comm, Nat.add_mul_mod_self_right, Nat.mod_eq_of_lt j.isLt]
  rw [List.getD_eq_getElem _ _ hlen]
  simp only [flattenM, List.getElem_ofFn, hdiv, hmod, Fin.eta]

theorem reshape_flattenM [Zero α] {n : ℕ} (A : Matrix (Fin n) (Fin n) α) :
    reshape (flattenM A) n = some A := by
  rw [reshape, if_pos (length_flattenM A)]
  congr 1
  ext i j
  exact flattenM_getD A i j 0

theorem mem_trilIdx {n : ℕ} (a b : Fin n) :
    (a, b) ∈ trilIdx n ↔ b.val ≤ a.val := by
  simp only [trilIdx, List.mem_flatMap, List.mem_map, List.mem_finRange, true_and,
    Prod.mk.injEq, Fin.ext_iff]
  constructor
  · rintro ⟨i, j, hia, hjb⟩
    have := j.isLt
    omega
  · intro h
    exact ⟨a, ⟨b.val, by omega⟩, rfl, rfl⟩

theorem nodup_trilIdx (n : ℕ) : (trilIdx n).Nodup := by
  rw [trilIdx, List.nodup_flatMap]
  constructor
  · intro i _
    refine List.Nodup.map ?_ (List.nodup_finRange _)
    intro j1 j2 hj
    exact Fin.ext (congrArg (fun q : Fin n × Fin n => q.2.val) hj)
  · refine List.Pairwise.imp ?_ (List.nodup_finRange n)
    intro i1 i2 hne x hx1 hx2
    simp only [List.mem_map] at hx1 hx2
    obtain ⟨j1, -, e1⟩ := hx1
    obtain ⟨j2, -, e2⟩ := hx2
    exact hne ((congrArg Prod.fst e1).trans (congrArg Prod.fst e2).symm)

theorem length_trilIdx (n : ℕ) : (trilIdx n).length = n * (n + 1) / 2 := by
  rw [trilIdx, List.length_flatMap]
  simp only [Function.comp_def, List.length_map, List.length_finRange]
  rw [← Fin.sum_univ_def fun i : Fin n => i.val + 1, Fin.sum_univ_eq_sum_range fun i => i + 1]
  have h2 : (∑ i in Finset.range n, (i + 1)) * 2 = n * (n + 1) := by
    induction n with
    | zero => simp
    | succ m ih => rw [Finset.sum_range_succ, Nat.add_mul, ih]; ring
  rw [← h2, Nat.mul_div_cancel _ (by norm_num : 0 < 2)]

theorem zip_self_map {β γ : Type} (l : List β) (f : β → γ) :
    l.zip (l.map f) = l.map fun x => (x, f x) := by
  induction l with
  | nil => rfl
  | cons x xs ih => simp [ih]

theorem writeList_of_forall_ne {α : Type} {n : ℕ} (M : Matrix (Fin n) (Fin n) α)
    (l : List ((Fin n × Fin n) × α)) (a b : Fin n)
    (h : ∀ q ∈ l, q.1 ≠ (a, b)) : writeList M l a b = M a b := by
  induction l generalizing M with
  | nil => rfl
  | cons q rest ih =>
    have hstep : writeList M (q :: rest) = writeList (setEntry M q.1 q.2) rest := rfl
    rw [hstep, ih _ fun p hp => h p (List.mem_cons_of_mem _ hp)]
    simp only [setEntry, Matrix.of_apply]
    exact if_neg fun e => h q (List.mem_cons_self q rest) e.symm

theorem writeList_getval {α : Type} {n : ℕ} (M : Matrix (Fin n) (Fin n) α)
    (l : List ((Fin n × Fin n) × α)) (a b : Fin n) (v : α)
    (hnd : (l.map Prod.fst).Nodup) (hmem : ((a, b), v) ∈ l) : writeList M l a b = v := by
  induction l generalizing M with
  | nil => cases hmem
  | cons q rest ih =>
    rw [List.map_cons, List.nodup_cons] at hnd
    have hstep : writeList M (q :: rest) = writeList (setEntry M q.1 q.2) rest := rfl
    rw [hstep]
    rcases List.mem_cons.mp hmem with heq | hmem'
    · have hkeys : ∀ p ∈ rest, p.1 ≠ (a, b) := by
        intro p hp hpe
        apply hnd.1
        have hq1 : q.1 = p.1 := by rw [← heq]; exact hpe.symm
        rw [hq1]
        exact List.mem_map_of_mem Prod.fst hp
      rw [writeList_of_forall_ne _ _ _ _ hkeys, ← heq]
      simp [setEntry]
    · exact ih _ hnd.2 hmem'

theorem setTril_map_trilIdx {α : Type} [Zero α] {n : ℕ} (C : Matrix (Fin n) (Fin n) α)
    (hC : ∀ i j : Fin n, i.val < j.val → C i j = 0) :
    setTril ((trilIdx n).map fun p => C p.1 p.2) n = some C := by
  rw [setTril, if_pos (List.length_map _ _)]
  congr 1
  have hz : (trilIdx n).zip ((trilIdx n).map fun p => C p.1 p.2)
      = (trilIdx n).map fun p => (p, C p.1 p.2) := zip_self_map _ _
  rw [hz]
  ext a b
  rcases le_or_lt b.val a.val with hle | hlt
  · refine writeList_getval _ _ a b _ ?_ ?_
    · rw [List.map_map]
      have : (Prod.fst ∘ fun p : Fin n × Fin n => (p, C p.1 p.2)) = id := rfl
      rw [this, List.map_id]
      exact nodup_trilIdx n
    · exact List.mem_map.mpr ⟨(a, b), (mem_trilIdx a b).mpr hle, rfl⟩
  · rw [writeList_of_forall_ne]
    · exact (hC a b hlt).symm
    · intro q hq hqe
      obtain ⟨p, hp, he⟩ := List.mem_map.mp hq
      have hpt : p.2.val ≤ p.1.val := by
        rcases p with ⟨p1, p2⟩
        exact (mem_trilIdx p1 p2).mp hp
      rw [← he] at hqe
      simp only at hqe
      rw [hqe] at hpt
      simp only at hpt
      omega

theorem theta_take_A {α : Type} {n : ℕ} (A B C : Matrix (Fin n) (Fin n) α) :
    (convert_abc_to_theta A B C).take (n * n) = flattenM A := by
  rw [convert_abc_to_theta, List.append_assoc]
  have h := List.take_left (flattenM A) (flattenM B ++ (trilIdx n).map fun p => C p.1 p.2)
  rwa [length_flattenM] at h

theorem theta_take_B {α : Type} {n : ℕ} (A B C : Matrix (Fin n) (Fin n) α) :
    ((convert_abc_to_theta A B C).drop (n * n)).take (n * n) = flattenM B := by
  rw [convert_abc_to_theta, List.append_assoc]
  have h := List.drop_left (flattenM A) (flattenM B ++ (trilIdx n).map fun p => C p.1 p.2)
  rw [length_flattenM] at h
  rw [h]
  have h2 := List.take_left (flattenM B) ((trilIdx n).map fun p => C p.1 p.2)
  rwa [length_flattenM] at h2

theorem theta_drop_C {α : Type} {n : ℕ} (A B C : Matrix (Fin n) (Fin n) α) :
    (convert_abc_to_theta A B C).drop (n * n + n * n)
      = (trilIdx n).map fun p => C p.1 p.2 := by
  rw [convert_abc_to_theta]
  have h := List.drop_left (flattenM A ++ flattenM B) ((trilIdx n).map fun p => C p.1 p.2)
  rwa [List.length_append, length_flattenM, length_flattenM] at h

/-- **C3**: for every `n`, matrices `A`, `B` and lower-triangular `C`, decoding the
encoded flat parameter vector reproduces the triple exactly:
`convert_theta_to_abc (convert_abc_to_theta A B C) n = some (A, B, C)`. -/
theorem claim_C3 {α : Type} [Zero α] {n : ℕ} (A B C : Matrix (Fin n) (Fin n) α)
    (hC : ∀ i j : Fin n, i.val < j.val → C i j = 0) :
    convert_theta_to_abc (convert_abc_to_theta A B C) n = some (A, B, C) := by
  rw [convert_theta_to_abc, theta_take_A, theta_take_B, theta_drop_C,
    reshape_flattenM, reshape_flattenM, setTril_map_trilIdx C hC]

/-- Witness for C3 at concrete rational matrices with `n = 2`. -/
theorem claim_C3_witness :
    convert_theta_to_abc (convert_abc_to_theta (!![1, 2; 3, 4] : Matrix (Fin 2) (Fin 2) ℚ)
        !![9, 8; 6, 5] !![5, 0; 7, 11]) 2
      = some (!![1, 2; 3, 4], !![9, 8; 6, 5], !![5, 0; 7, 11]) :=
  claim_C3 _ _ _ (by decide)

theorem reshape_eq_none_iff {α : Type} [Zero α] (l : List α) (n : ℕ) :
    reshape l n = none ↔ l.length ≠ n * n := by
  by_cases h : l.length = n * n
  · simp [reshape, h]
  · simp [reshape, h]

theorem convert_ab_of_flatten {α : Type} [Zero α] {n : ℕ}
    (A B : Matrix (Fin n) (Fin n) α) (rest : List α) :
    convert_theta_to_ab (flattenM A ++ (flattenM B ++ rest)) n = some (A, B) := by
  rw [convert_theta_to_ab]
  have h1 : (flattenM A ++ (flattenM B ++ rest)).take (n * n) = flattenM A := by
    have h := List.take_left (flattenM A) (flattenM B ++ rest)
    rwa [length_flattenM] at h
  have h2 : ((flattenM A ++ (flattenM B ++ rest)).drop (n * n)).take (n * n) = flattenM B := by
    have h := List.drop_left (flattenM A) (flattenM B ++ rest)
    rw [length_flattenM] at h
    rw [h]
    have h2 := List.take_left (flattenM B) rest
    rwa [length_flattenM] at h2
  rw [h1, h2, reshape_flattenM, reshape_flattenM]

theorem convert_ab_eq_none_iff {α : Type} [Zero α] (θ : List α) (n : ℕ) :
    convert_theta_to_ab θ n = none ↔ θ.length < n * n + n * n := by
  rw [convert_theta_to_ab]
  rcases lt_or_le θ.length (n * n) with h1 | h1
  · rw [(reshape_eq_none_iff (θ.take (n * n)) n).mpr (by rw [List.length_take]; omega)]
    cases hB : reshape ((θ.drop (n * n)).take (n * n)) n
    · exact iff_of_true rfl (by omega)
    · exact iff_of_true rfl (by omega)
  · obtain ⟨A, hA⟩ : ∃ A, reshape (θ.take (n * n)) n = some A := by
      rw [reshape, if_pos (by rw [List.length_take]; omega)]
      exact ⟨_, rfl⟩
    rw [hA]
    rcases lt_or_le θ.length (n * n + n * n) with h2 | h2
    · rw [(reshape_eq_none_iff ((θ.drop (n * n)).take (n * n)) n).mpr
        (by rw [List.length_take, List.length_drop]; omega)]
      exact iff_of_true rfl (by omega)
    · obtain ⟨B, hB⟩ : ∃ B, reshape ((θ.drop (n * n)).take (n * n)) n = some B := by
        rw [reshape, if_pos (by rw [List.length_take, List.length_drop]; omega)]
        exact ⟨_, rfl⟩
      rw [hB]
      exact iff_of_false (by simp) (by omega)

theorem setTril_eq_none_iff {α : Type} [Zero α] (vals : List α) (n : ℕ) :
    setTril vals n = none ↔
      (vals.length ≠ (trilIdx n).length ∧ vals.length ≠ 1) := by
  by_cases h1 : vals.length = (trilIdx n).length
  · rw [setTril, if_pos h1]
    simp [h1]
  · by_cases h2 : vals.length = 1
    · rw [setTril, if_neg h1, if_pos h2]
      simp [h1, h2]
    · rw [setTril, if_neg h1, if_neg h2]
      simp [h1, h2]

theorem convert_abc_eq_none_iff {α : Type} [Zero α] (θ : List α) (n : ℕ) :
    convert_theta_to_abc θ n = none ↔
      (θ.length < n * n + n * n ∨
        (θ.length - (n * n + n * n) ≠ (trilIdx n).length ∧
          θ.length - (n * n + n * n) ≠ 1)) := by
  rw [convert_theta_to_abc]
  rcases lt_or_le θ.length (n * n) with h1 | h1
  · rw [(reshape_eq_none_iff (θ.take (n * n)) n).mpr (by rw [List.length_take]; omega)]
    cases hB : reshape ((θ.drop (n * n)).take (n * n)) n <;>
      cases hT : setTril (θ.drop (n * n + n * n)) n <;>
      exact iff_of_true rfl (Or.inl (by omega))
  · obtain ⟨A, hA⟩ : ∃ A, reshape (θ.take (n * n)) n = some A := by
      rw [reshape, if_pos (by rw [List.length_take]; omega)]
      exact ⟨_, rfl⟩
    rw [hA]
    rcases lt_or_le θ.length (n * n + n * n) with h2 | h2
    · rw [(reshape_eq_none_iff ((θ.drop (n * n)).take (n * n)) n).mpr
        (by rw [List.length_take, List.length_drop]; omega)]
      cases hT : setTril (θ.drop (n * n + n * n)) n <;>
        exact iff_of_true rfl (Or.inl (by omega))
    · obtain ⟨B, hB⟩ : ∃ B, reshape ((θ.drop (n * n)).take (n * n)) n = some B := by
        rw [reshape, if_pos (by rw [List.length_take, List.length_drop]; omega)]
        exact ⟨_, rfl⟩
      rw [hB]
      have hlen : (θ.drop (n * n + n * n)).length = θ.length - (n * n + n * n) :=
        List.length_drop ..
      by_cases h3 : (θ.drop (n * n + n * n)).length ≠ (trilIdx n).length ∧
          (θ.drop (n * n + n * n)).length ≠ 1
      · rw [(setTril_eq_none_iff _ n).mpr h3]
        exact iff_of_true rfl (Or.inr (by omega))
      · obtain ⟨Cm, hCm⟩ : ∃ Cm, setTril (θ.drop (n * n + n * n)) n = some Cm := by
          rw [setTril]
          push_neg at h3
          by_cases h4 : (θ.drop (n * n + n * n)).length = (trilIdx n).length
          · rw [if_pos h4]
            exact ⟨_, rfl⟩
          · rw [if_neg h4, if_pos (h3 h4)]
            exact ⟨_, rfl⟩
        rw [hCm]
        refine iff_of_false (by simp) ?_
        push_neg at h3
        rcases Decidable.em ((θ.drop (n * n + n * n)).length = (trilIdx n).length) with h4 | h4
        · intro hc
          rcases hc with hc | hc
          · omega
          · exact hc.1 (by omega)
        · intro hc
          have h5 := h3 h4
          rcases hc with hc | hc
          · omega
          · exact hc.2 (by omega)

/-- **C7 (amended)**: `convert_theta_to_ab` fails exactly when `len θ < 2n²`.
`convert_theta_to_abc` fails exactly when `len θ < 2n²` or the trailing slice
has length different from both `n(n+1)/2` and `1`; a trailing slice of length
`1` is broadcast by numpy across all lower-triangular positions of `C`, so a
θ of length `2n² + 1` does *not* raise. -/
theorem claim_C7 {α : Type} [Zero α] (θ : List α) (n : ℕ) :
    (convert_theta_to_ab θ n = none ↔ θ.length < 2 * n ^ 2) ∧
    (convert_theta_to_abc θ n = none ↔
      (θ.length < 2 * n ^ 2 ∨
        (θ.length - 2 * n ^ 2 ≠ n * (n + 1) / 2 ∧ θ.length - 2 * n ^ 2 ≠ 1))) := by
  have hp : 2 * n ^ 2 = n * n + n * n := by ring
  rw [hp]
  refine ⟨convert_ab_eq_none_iff θ n, ?_⟩
  rw [convert_abc_eq_none_iff, length_trilIdx]

/-- Counterexample to C7 as stated: θ of length 9 with `n = 2` (so
`len θ ≠ 2n² + n(n+1)/2 = 11`) is decoded *without* error, because numpy
broadcasts the single trailing value over the three lower-triangular slots. -/
theorem claim_C7_counterexample :
    (convert_theta_to_abc (List.replicate 9 (0 : ℚ)) 2).isSome = true ∧
    (List.replicate 9 (0 : ℚ)).length ≠ 2 * 2 ^ 2 + 2 * (2 + 1) / 2 := by
  exact ⟨by decide, by decide⟩

end Codec

section Estimation

variable {n T : ℕ}

/-- `estimate_H0(u) = u.T.dot(u) / T`: sample second moment of the whole series. -/
def estimate_H0 (u : Matrix (Fin T) (Fin n) ℚ) : Matrix (Fin n) (Fin n) ℚ :=
  ((T : ℚ))⁻¹ • (uᵀ * u)

/-- Row `t` of the innovation matrix, as the numpy access `u[t]` inside the loop
(the loop only touches rows `0 ≤ t < T`). -/
def rowOf (u : Matrix (Fin T) (Fin n) ℚ) (t : ℕ) : Fin n → ℚ :=
  if h : t < T then u ⟨t, h⟩ else 0

/-- The estimation-mode covariance path built inside `likelihood`:
`H[0] = estimate_H0(u)`;
`H[t] = H[0] + A·(u[t-1]u[t-1]ᵀ − H[0])·Aᵀ + B·(H[t-1] − H[0])·Bᵀ`. -/
def likeH (A B : Matrix (Fin n) (Fin n) ℚ) (u : Matrix (Fin T) (Fin n) ℚ) :
    ℕ → Matrix (Fin n) (Fin n) ℚ
  | 0 => estimate_H0 u
  | t + 1 =>
    estimate_H0 u
      + A * (vecMulVec (rowOf u t) (rowOf u t) - estimate_H0 u) * Aᵀ
      + B * (likeH A B u t - estimate_H0 u) * Bᵀ

theorem estimate_H0_symm (u : Matrix (Fin T) (Fin n) ℚ) :
    (estimate_H0 u)ᵀ = estimate_H0 u := by
  rw [estimate_H0, Matrix.transpose_smul, Matrix.transpose_mul, Matrix.transpose_transpose]

theorem vecMulVec_self_symm (v : Fin n → ℚ) :
    (vecMulVec v v)ᵀ = vecMulVec v v := by
  ext i j
  simp [Matrix.vecMulVec_apply, mul_comm]

theorem likeH_symm (A B : Matrix (Fin n) (Fin n) ℚ) (u : Matrix (Fin T) (Fin n) ℚ)
    (t : ℕ) : (likeH A B u t)ᵀ = likeH A B u t := by
  induction t with
  | zero => exact estimate_H0_symm u
  | succ s ih =>
    show (estimate_H0 u
      + A * (vecMulVec (rowOf u s) (rowOf u s) - estimate_H0 u) * Aᵀ
      + B * (likeH A B u s - estimate_H0 u) * Bᵀ)ᵀ = _
    rw [Matrix.transpose_add, Matrix.transpose_add, Matrix.transpose_mul, Matrix.transpose_mul,
      Matrix.transpose_mul, Matrix.transpose_mul, Matrix.transpose_transpose,
      Matrix.transpose_transpose, Matrix.transpose_sub, Matrix.transpose_sub,
      vecMulVec_self_symm, estimate_H0_symm, ih, ← Matrix.mul_assoc, ← Matrix.mul_assoc]
    rfl

/-- **C2**: in estimation mode the covariance path satisfies `H(0) = uᵀu/T` and,
for `1 ≤ t ≤ T-1`,
`H(t) = H(0) + A·(u(t-1)u(t-1)ᵀ − H(0))·Aᵀ + B·(H(t-1) − H(0))·Bᵀ`. -/
theorem claim_C2 {n T : ℕ} (θ : List ℚ) (u : Matrix (Fin T) (Fin n) ℚ)
    (A B : Matrix (Fin n) (Fin n) ℚ) (_h : convert_theta_to_ab θ n = some (A, B)) :
    likeH A B u 0 = ((T : ℚ))⁻¹ • (uᵀ * u) ∧
    ∀ t : ℕ, 1 ≤ t → t ≤ T - 1 →
      likeH A B u t = likeH A B u 0
        + A * (vecMulVec (rowOf u (t - 1)) (rowOf u (t - 1)) - likeH A B u 0) * Aᵀ
        + B * (likeH A B u (t - 1) - likeH A B u 0) * Bᵀ := by
  refine ⟨rfl, ?_⟩
  intro t ht _
  obtain ⟨s, rfl⟩ : ∃ s, t = s + 1 := ⟨t - 1, by omega⟩
  simp only [Nat.add_sub_cancel]
  rfl

/-- Witness for C2 with `n = 1`, `T = 2`, `θ = [2, 3]`, `u = (5, 7)ᵀ`, at `t = 1`. -/
theorem claim_C2_witness :
    likeH !![(2 : ℚ)] !![3] !![5; 7] 1
      = likeH !![(2 : ℚ)] !![3] !![5; 7] 0
        + !![(2 : ℚ)] * (vecMulVec (rowOf !![(5 : ℚ); 7] 0) (rowOf !![(5 : ℚ); 7] 0)
            - likeH !![(2 : ℚ)] !![3] !![5; 7] 0) * !![(2 : ℚ)]ᵀ
        + !![(3 : ℚ)] * (likeH !![(2 : ℚ)] !![3] !![5; 7] 0
            - likeH !![(2 : ℚ)] !![3] !![5; 7] 0) * !![(3 : ℚ)]ᵀ :=
  (claim_C2 (flattenM !![2] ++ (flattenM !![3] ++ [])) !![5; 7] !![2] !![3]
    (convert_ab_of_flatten !![2] !![3] [])).2 1 (by decide) (by decide)

/-- **C8**: when `A = 0` and `B = 0` the estimation-mode recursion yields the
constant path `H(t) = H(0) = uᵀu/T` for every `t ≤ T-1`. -/
theorem claim_C8 {n T : ℕ} (u : Matrix (Fin T) (Fin n) ℚ)
    (A B : Matrix (Fin n) (Fin n) ℚ) (hA : A = 0) (hB : B = 0)
    (t : ℕ) (ht : t ≤ T - 1) : likeH A B u t = estimate_H0 u := by
  subst hA hB
  cases t with
  | zero => rfl
  | succ s => simp [likeH]

/-- Witness for C8 at `n = 1`, `T = 2`, `t = 1`. -/
theorem claim_C8_witness :
    likeH (0 : Matrix (Fin 1) (Fin 1) ℚ) 0 !![4; 6] 1 = estimate_H0 !![4; 6] :=
  claim_C8 !![4; 6] 0 0 rfl rfl 1 (by decide)

/-- **C9**: every matrix of the estimation-mode covariance path is symmetric,
for every innovation series and every decodable parameter vector. -/
theorem claim_C9 {n T : ℕ} (θ : List ℚ) (u : Matrix (Fin T) (Fin n) ℚ)
    (A B : Matrix (Fin n) (Fin n) ℚ) (_h : convert_theta_to_ab θ n = some (A, B))
    (t : ℕ) (_ht : t ≤ T - 1) : (likeH A B u t)ᵀ = likeH A B u t :=
  likeH_symm A B u t

/-- Witness for C9 at `n = 1`, `T = 2`, `t = 1`. -/
theorem claim_C9_witness :
    (likeH !![(2 : ℚ)] !![3] !![5; 7] 1)ᵀ = likeH !![(2 : ℚ)] !![3] !![5; 7] 1 :=
  claim_C9 (flattenM !![2] ++ (flattenM !![3] ++ [])) !![5; 7] !![2] !![3]
    (convert_ab_of_flatten !![2] !![3] []) 1 (by decide)

/-- `np.linalg.inv(H)`, written with the adjugate so that it is computable over
`ℚ`; it coincides with Mathlib's `H⁻¹` (see `matInv_eq_inv`). -/
def matInv (H : Matrix (Fin n) (Fin n) ℚ) : Matrix (Fin n) (Fin n) ℚ :=
  (H.det)⁻¹ • H.adjugate

theorem matInv_eq_inv (H : Matrix (Fin n) (Fin n) ℚ) : matInv H = H⁻¹ := by
  rw [matInv, Matrix.inv_def, Ring.inverse_eq_inv]

/-- The `bad` test of `contribution`:
`np.any(np.isinf(H)) or np.isclose(det H, 0) or det H > 1e20 or det H < 0`.
In exact arithmetic no entry is infinite, and `np.isclose(x, 0)` with numpy's
default tolerances (`rtol = 1e-5`, `atol = 1e-8`) is `|x| ≤ 1e-8 + 1e-5·|0|`. -/
def badH (H : Matrix (Fin n) (Fin n) ℚ) : Prop :=
  |H.det| ≤ 1e-8 ∨ H.det > 1e20 ∨ H.det < 0

instance (H : Matrix (Fin n) (Fin n) ℚ) : Decidable (badH H) :=
  inferInstanceAs (Decidable (_ ∨ _ ∨ _))

/-- Per-observation contribution to the log-likelihood: the penalty `1e10` on
the `bad` branch, else `log(det H) + u·H⁻¹·u`. -/
noncomputable def contribution (u : Fin n → ℚ) (H : Matrix (Fin n) (Fin n) ℚ) : ℝ :=
  if badH H then 1e10
  else Real.log ((H.det : ℚ) : ℝ) + ((u ⬝ᵥ ((matInv H) *ᵥ u) : ℚ) : ℝ)

/-- `likelihood(theta, u)`: decode `θ`, build the estimation-mode path `likeH`,
and accumulate the per-step contributions (the loop sums
`contribution(u[t], H[t])` for `t = 0..T-1`).  The trailing
`if np.isinf(f): return 1e10` guard has no exact-arithmetic counterpart: a
finite sum of reals is never infinite, so it is the identity here. -/
noncomputable def likelihood (θ : List ℚ) (u : Matrix (Fin T) (Fin n) ℚ) : Option ℝ :=
  (convert_theta_to_ab θ n).map fun AB =>
    ∑ t in Finset.range T, contribution (rowOf u t) (likeH AB.1 AB.2 u t)

/-- **C1 (amended)**: the likelihood evaluator is total — it returns a real
number for every innovation series and every `θ` of length at least `2n²` —
but its value is *not* bounded by `1e10` (see `claim_C1_counterexample`):
each penalized step contributes `1e10` and a non-penalized step contributes
`log det + u·H⁻¹·u`, which is unbounded; the final `isinf` cap never fires in
exact arithmetic. -/
theorem claim_C1 {n T : ℕ} (θ : List ℚ) (u : Matrix (Fin T) (Fin n) ℚ)
    (_hT : 1 ≤ T) (hθ : 2 * n ^ 2 ≤ θ.length) : (likelihood θ u).isSome = true := by
  rw [likelihood]
  cases h : convert_theta_to_ab θ n with
  | none =>
    exfalso
    have h2 := (convert_ab_eq_none_iff θ n).mp h
    have h3 : 2 * n ^ 2 = n * n + n * n := by ring
    omega
  | some AB => rfl

/-- Witness for C1 at `n = 1`, `T = 2`. -/
theorem claim_C1_witness : (likelihood [(2 : ℚ), 3] !![5; 7]).isSome = true :=
  claim_C1 [2, 3] !![5; 7] (by norm_num) (by norm_num)

/-- Counterexample to C1 as stated: with `θ = [1 - 2.5e-11, 0]` and the series
`u = (0, 10⁶)`, the covariance shrinks to `H(1) ≈ 50` while `u(1) = 10⁶`, so the
quadratic form at step 1 is `≈ 2·10¹⁰ > 1e10`; the returned value exceeds the
claimed `1e10` bound.  No exception and no penalty branch is involved. -/
theorem claim_C1_counterexample :
    (1e10 : ℝ) < (likelihood [(19999999999 / 20000000000 : ℚ), 0] !![0; 1000000]).getD 0 := by
  have hdec : convert_theta_to_ab [(19999999999 / 20000000000 : ℚ), 0] 1
      = some (!![19999999999 / 20000000000], !![0]) :=
    convert_ab_of_flatten (!![(19999999999 / 20000000000 : ℚ)]) (!![(0 : ℚ)]) []
  rw [likelihood, hdec]
  simp only [Option.map_some', Option.getD_some]
  rw [Finset.sum_range_succ, Finset.sum_range_one]
  have hH0 : likeH (!![(19999999999 / 20000000000 : ℚ)]) !![0] !![0; 1000000] 0
      = !![500000000000] := by
    show estimate_H0 !![0; 1000000] = _
    ext i j
    fin_cases i
    fin_cases j
    simp [estimate_H0, Matrix.mul_apply, Fin.sum_univ_two, Matrix.transpose_apply,
      Matrix.smul_apply, Matrix.vecHead, Matrix.vecTail]
    norm_num
  have hH1 : likeH (!![(19999999999 / 20000000000 : ℚ)]) !![0] !![0; 1000000] 1
      = !![39999999999 / 800000000] := by
    have hstep : likeH (!![(19999999999 / 20000000000 : ℚ)]) !![0] !![0; 1000000] 1
        = estimate_H0 !![0; 1000000]
          + !![(19999999999 / 20000000000 : ℚ)]
            * (vecMulVec (rowOf !![0; 1000000] 0) (rowOf !![0; 1000000] 0)
              - estimate_H0 !![0; 1000000]) * (!![(19999999999 / 20000000000 : ℚ)])ᵀ
          + !![(0 : ℚ)] * (likeH (!![(19999999999 / 20000000000 : ℚ)]) !![0] !![0; 1000000] 0
              - estimate_H0 !![0; 1000000]) * (!![(0 : ℚ)])ᵀ := rfl
    rw [hstep]
    ext i j
    fin_cases i
    fin_cases j
    simp [estimate_H0, rowOf, Matrix.mul_apply, Matrix.vecMulVec_apply, Fin.sum_univ_two,
      Fin.sum_univ_one, Matrix.transpose_apply, Matrix.smul_apply, Matrix.add_apply,
      Matrix.sub_apply, Matrix.vecHead, Matrix.vecTail, Matrix.vecMul, Matrix.dotProduct]
    norm_num
  rw [hH0, hH1]
  have hr0 : rowOf (!![0; 1000000] : Matrix (Fin 2) (Fin 1) ℚ) 0 = ![0] := by
    funext j
    fin_cases j
    simp [rowOf]
  have hr1 : rowOf (!![0; 1000000] : Matrix (Fin 2) (Fin 1) ℚ) 1 = ![1000000] := by
    funext j
    fin_cases j
    simp [rowOf]
  rw [hr0, hr1]
  have hnb0 : ¬ badH (!![(500000000000 : ℚ)]) := by
    norm_num [badH, Matrix.det_fin_one]
  have hnb1 : ¬ badH (!![(39999999999 / 800000000 : ℚ)]) := by
    norm_num [badH, Matrix.det_fin_one_of, abs_of_pos]
  rw [contribution, if_neg hnb0, contribution, if_neg hnb1]
  have hd0 : (!![(500000000000 : ℚ)]).det = 500000000000 := Matrix.det_fin_one_of _
  have hd1 : (!![(39999999999 / 800000000 : ℚ)]).det = 39999999999 / 800000000 :=
    Matrix.det_fin_one_of _
  have hq0 : ((![0] : Fin 1 → ℚ) ⬝ᵥ (matInv !![(500000000000 : ℚ)] *ᵥ ![0])) = 0 := by
    norm_num [matInv, Matrix.dotProduct, Matrix.mulVec, Fin.sum_univ_one]
  have hq1 : ((![1000000] : Fin 1 → ℚ)
        ⬝ᵥ (matInv !![(39999999999 / 800000000 : ℚ)] *ᵥ ![1000000]))
      = 800000000000000000000 / 39999999999 := by
    norm_num [matInv, Matrix.dotProduct, Matrix.mulVec, Fin.sum_univ_one,
      Matrix.adjugate_fin_one, Matrix.det_fin_one]
  rw [hd0, hd1, hq0, hq1]
  have hl0 : (0 : ℝ) ≤ Real.log ((500000000000 : ℚ) : ℝ) :=
    Real.log_nonneg (by norm_num)
  have hl1 : (0 : ℝ) ≤ Real.log ((39999999999 / 800000000 : ℚ) : ℝ) :=
    Real.log_nonneg (by push_cast; norm_num)
  have hq1c : (1e10 : ℝ) < ((800000000000000000000 / 39999999999 : ℚ) : ℝ) := by
    push_cast
    norm_num
  push_cast
  push_cast at hl0 hl1 hq1c
  linarith

/-- Positive definiteness over `ℚ`: symmetric with positive quadratic form on
nonzero vectors. -/
def posDefQ {n : ℕ} (H : Matrix (Fin n) (Fin n) ℚ) : Prop :=
  Hᵀ = H ∧ ∀ x : Fin n → ℚ, x ≠ 0 → 0 < x ⬝ᵥ (H *ᵥ x)

/-- **C4 (amended)**: the per-step contribution equals the penalty `1e10`
exactly when `det H ≤ 1e-8` or `det H > 1e20` (the code's guard
`isclose(det,0) ∨ det > 1e20 ∨ det < 0` collapses to exactly this in exact
arithmetic); in every other case it equals `log(det H) + u·H⁻¹·u`.  The guard
is det-based, not a positive-definiteness test, and the blow-up boundary is
strict (`det > 1e20`), not `det ≥ 1e20`. -/
theorem claim_C4 {n : ℕ} (u : Fin n → ℚ) (H : Matrix (Fin n) (Fin n) ℚ) :
    (badH H ↔ H.det ≤ 1e-8 ∨ 1e20 < H.det) ∧
    (badH H → contribution u H = 1e10) ∧
    (¬ badH H → contribution u H
      = Real.log ((H.det : ℚ) : ℝ) + ((u ⬝ᵥ (H⁻¹ *ᵥ u) : ℚ) : ℝ)) := by
  refine ⟨?_, fun hb => if_pos hb, fun hb => ?_⟩
  · unfold badH
    rw [abs_le]
    constructor
    · rintro (⟨h1, h2⟩ | h | h)
      · exact Or.inl h2
      · exact Or.inr h
      · exact Or.inl (le_trans h.le (by norm_num))
    · rintro (h | h)
      · rcases le_or_lt (-(1e-8) : ℚ) H.det with h2 | h2
        · exact Or.inl ⟨h2, h⟩
        · exact Or.inr (Or.inr (lt_of_lt_of_le h2 (by norm_num)))
      · exact Or.inr (Or.inl h)
  · rw [contribution, if_neg hb, matInv_eq_inv]

/-- Witness for C4: both branches at concrete inputs with `n = 1`. -/
theorem claim_C4_witness :
    contribution ![1] !![(0 : ℚ)] = 1e10 ∧
    contribution ![1] !![(2 : ℚ)]
      = Real.log (((!![(2 : ℚ)]).det : ℚ) : ℝ)
        + ((![1] ⬝ᵥ ((!![(2 : ℚ)])⁻¹ *ᵥ ![1]) : ℚ) : ℝ) :=
  ⟨(claim_C4 ![1] !![0]).2.1 (by norm_num [badH, Matrix.det_fin_one]),
    (claim_C4 ![1] !![2]).2.2 (by norm_num [badH, Matrix.det_fin_one])⟩

/-- Counterexample to C4 as stated: `H = -I₂` is not positive-definite, and no
entry is non-finite and `det H = 1 < 1e20`, yet the contribution is *not* the
penalty `1e10` (it is `log 1 + 0·H⁻¹·0 = 0`): the claim's positive-definiteness
trigger does not match the code's det-based test. -/
theorem claim_C4_counterexample :
    ¬ posDefQ (!![-1, 0; 0, -1] : Matrix (Fin 2) (Fin 2) ℚ) ∧
    contribution ![0, 0] (!![-1, 0; 0, -1] : Matrix (Fin 2) (Fin 2) ℚ) ≠ 1e10 := by
  constructor
  · rintro ⟨hsym, hpd⟩
    have hne : (![1, 0] : Fin 2 → ℚ) ≠ 0 := by
      intro he
      have := congrFun he 0
      norm_num at this
    have h := hpd ![1, 0] hne
    have hval : (![1, 0] ⬝ᵥ ((!![-1, 0; 0, -1] : Matrix (Fin 2) (Fin 2) ℚ) *ᵥ ![1, 0])) = -1 := by
      norm_num [Matrix.dotProduct, Matrix.mulVec, Fin.sum_univ_two]
    rw [hval] at h
    norm_num at h
  · have hnb : ¬ badH (!![-1, 0; 0, -1] : Matrix (Fin 2) (Fin 2) ℚ) := by
      norm_num [badH, Matrix.det_fin_two]
    rw [contribution, if_neg hnb]
    have hd : (!![-1, 0; 0, -1] : Matrix (Fin 2) (Fin 2) ℚ).det = 1 := by
      norm_num [Matrix.det_fin_two]
    have hq : ((![0, 0] ⬝ᵥ (matInv (!![-1, 0; 0, -1] : Matrix (Fin 2) (Fin 2) ℚ) *ᵥ ![0, 0]) : ℚ)) = 0 := by
      norm_num [matInv, Matrix.dotProduct, Matrix.mulVec, Fin.sum_univ_two]
    rw [hd, hq]
    norm_num

end Estimation

section Simulation

variable {n : ℕ}

/-- `scipy.linalg.cholesky(H, lower=True)` entries via the Cholesky–Crout
recursion: `L j j = √(H j j − Σ_{k<j} L j k²)`;
`L i j = (H i j − Σ_{k<j} L i k · L j k) / L j j` for `i > j`; `0` above the
diagonal (indices outside the matrix give `0`). -/
noncomputable def cholEntry (H : Matrix (Fin n) (Fin n) ℝ) : ℕ → ℕ → ℝ
  | i, j =>
    if h : i < n ∧ j < n then
      if i < j then 0
      else if i = j then
        Real.sqrt (H ⟨i, h.1⟩ ⟨i, h.1⟩
          - ∑ k in (Finset.range j).attach, cholEntry H i k.val ^ 2)
      else
        (H ⟨i, h.1⟩ ⟨j, h.2⟩
            - ∑ k in (Finset.range j).attach, cholEntry H i k.val * cholEntry H j k.val)
          / cholEntry H j j
    else 0
  termination_by i j => (j, i)
  decreasing_by
  all_goals first
    | exact Prod.Lex.left _ _ (Finset.mem_range.mp k.2)
    | exact Prod.Lex.right _ (by omega)

/-- The lower Cholesky factor as a matrix. -/
noncomputable def cholLower (H : Matrix (Fin n) (Fin n) ℝ) : Matrix (Fin n) (Fin n) ℝ :=
  Matrix.of fun i j => cholEntry H i.val j.val

/-- One iteration `Hnew = C·Cᵀ + A·Hold·Aᵀ + B·Hold·Bᵀ` of `stationary_H`. -/
def statStep (A B C H : Matrix (Fin n) (Fin n) ℝ) : Matrix (Fin n) (Fin n) ℝ :=
  C * Cᵀ + A * H * Aᵀ + B * H * Bᵀ

/-- The loop iterate after `k` iterations of `stationary_H`; the seed `Hold`
is the identity. -/
def statIter (A B C : Matrix (Fin n) (Fin n) ℝ) : ℕ → Matrix (Fin n) (Fin n) ℝ
  | 0 => 1
  | k + 1 => statStep A B C (statIter A B C k)

/-- `np.linalg.norm` of a matrix: the Frobenius norm. -/
noncomputable def frobNorm (M : Matrix (Fin n) (Fin n) ℝ) : ℝ :=
  Real.sqrt (∑ i, ∑ j, M i j ^ 2)

/-- After completing iteration `m ≥ 1`, the guard
`while (norm > 1e-3) or (i < 1000)` is re-evaluated with `i = m` and
`norm = ‖H_m − H_{m-1}‖_F`; `statExit` is the set of iteration counts at which
the loop stops.  (The loop always enters: initially `norm = 1e3` and `i = 0`.) -/
def statExit (A B C : Matrix (Fin n) (Fin n) ℝ) : Set ℕ :=
  {m | 1 ≤ m ∧
    ¬ (1e-3 < frobNorm (statIter A B C m - statIter A B C (m - 1)) ∨ m < 1000)}

/-- `stationary_H(A, B, C)`: the iterate at the first exit time of the loop
(junk value `statIter 0 = I` when the loop never terminates, i.e. when
`statExit` is empty and `sInf` is `0`). -/
noncomputable def stationary_H (A B C : Matrix (Fin n) (Fin n) ℝ) :
    Matrix (Fin n) (Fin n) ℝ :=
  statIter A B C (sInf (statExit A B C))

/-- `simulate_BEKK`: the joint path `(H(t), u(t))` driven by the standardized
draws `e`.  `u` is initialized to zeros and the loop starts at `t = 1`, so
`u(0)` stays exactly `0`; `H(0) = stationary_H(A, B, C)`.  (The source fixes
`T = 1000` and samples `e` from a standard normal; the draws enter the
recursion only through `e`.) -/
noncomputable def simUH (A B C : Matrix (Fin n) (Fin n) ℝ) (e : ℕ → Fin n → ℝ) :
    ℕ → Matrix (Fin n) (Fin n) ℝ × (Fin n → ℝ)
  | 0 => (stationary_H A B C, 0)
  | t + 1 =>
    let Ht := C * Cᵀ + A * vecMulVec (simUH A B C e t).2 (simUH A B C e t).2 * Aᵀ
      + B * (simUH A B C e t).1 * Bᵀ
    (Ht, cholLower Ht *ᵥ e (t + 1))

/-- **C5**: in simulation mode `u(0)` is exactly the zero vector, and for every
`t ≥ 1`: `H(t) = C·Cᵀ + A·(u(t-1)u(t-1)ᵀ)·Aᵀ + B·H(t-1)·Bᵀ` and
`u(t) = chol_lower(H(t))·e(t)`. -/
theorem claim_C5 {n : ℕ} (A B C : Matrix (Fin n) (Fin n) ℝ) (e : ℕ → Fin n → ℝ) :
    (simUH A B C e 0).2 = 0 ∧
    ∀ t : ℕ,
      (simUH A B C e (t + 1)).1
        = C * Cᵀ + A * vecMulVec (simUH A B C e t).2 (simUH A B C e t).2 * Aᵀ
          + B * (simUH A B C e t).1 * Bᵀ ∧
      (simUH A B C e (t + 1)).2 = cholLower (simUH A B C e (t + 1)).1 *ᵥ e (t + 1) :=
  ⟨rfl, fun _ => ⟨rfl, rfl⟩⟩

/-- Error kind raised by `simulate_bekk` on an unknown distribution name. -/
inductive SimError : Type
  | valueError : SimError

/-- Parameter container (`BEKKParams`): attribute matrices `a_mat`, `b_mat`,
`c_mat`.  Modelled from the spec: the method `unconditional_var()` (defined in
a module not part of this repository slice) returns the unconditional
covariance used to seed `hvar[0]`; it is kept as abstract data `uncond` since
no claim depends on its value. -/
structure BEKKParams (n : ℕ) : Type where
  a_mat : Matrix (Fin n) (Fin n) ℝ
  b_mat : Matrix (Fin n) (Fin n) ℝ
  c_mat : Matrix (Fin n) (Fin n) ℝ
  uncond : Matrix (Fin n) (Fin n) ℝ

/-- Columnwise standardization `(error - error.mean(0)) / error.std(0)` over
the first `nobs` draws (numpy `std` with `ddof = 0`). -/
noncomputable def standardize (nobs : ℕ) (err : ℕ → Fin n → ℝ) : ℕ → Fin n → ℝ :=
  fun t j =>
    (err t j - (∑ s in Finset.range nobs, err s j) / nobs)
      / Real.sqrt ((∑ s in Finset.range nobs,
          (err s j - (∑ r in Finset.range nobs, err r j) / nobs) ^ 2) / nobs)

/-- The `hvar`/`innov` recursion of `generate_data.simulate_bekk`:
`hvar[0] = param.unconditional_var()`, `innov[0] = 0`, and for `i ≥ 1`
`hvar[i] = CCᵀ + A·innov²·Aᵀ + B·hvar[i-1]·Bᵀ`,
`innov[i] = chol_lower(hvar[i])·e[i]`. -/
noncomputable def bekkLoop (param : BEKKParams n) (e : ℕ → Fin n → ℝ) :
    ℕ → Matrix (Fin n) (Fin n) ℝ × (Fin n → ℝ)
  | 0 => (param.uncond, 0)
  | t + 1 =>
    let intercept := param.c_mat * param.c_matᵀ
    let Ht := intercept
      + param.a_mat * vecMulVec (bekkLoop param e t).2 (bekkLoop param e t).2 * param.a_matᵀ
      + param.b_mat * (bekkLoop param e t).1 * param.b_matᵀ
    (Ht, cholLower Ht *ᵥ e (t + 1))

/-- `simulate_bekk(param, nobs, distr, degf, lam)`: selects the innovation
sampler by `distr` (the three samplers are external collaborators, supplied
here as the raw draw matrices `eNormal`, `eStudent`, `eSkewt`), raises
`ValueError` for any other name, then standardizes the draws and runs the
covariance/innovation recursion. -/
noncomputable def simulate_bekk (param : BEKKParams n) (nobs : ℕ) (distr : String)
    (eNormal eStudent eSkewt : ℕ → Fin n → ℝ) :
    Except SimError ((ℕ → Fin n → ℝ) × (ℕ → Matrix (Fin n) (Fin n) ℝ)) :=
  let raw : Except SimError (ℕ → Fin n → ℝ) :=
    if distr = "normal" then .ok eNormal
    else if distr = "student" then .ok eStudent
    else if distr = "skewt" then .ok eSkewt
    else .error .valueError
  match raw with
  | .error err => .error err
  | .ok err0 =>
    let e := standardize nobs err0
    .ok (fun t => (bekkLoop param e t).2, fun t => (bekkLoop param e t).1)

/-- **C10**: `simulate_bekk` returns `ValueError` for every `distr` outside
`{normal, student, skewt}`; the error is produced before any covariance or
innovation value (the error result carries no data). -/
theorem claim_C10 {n : ℕ} (param : BEKKParams n) (nobs : ℕ) (distr : String)
    (eN eS eK : ℕ → Fin n → ℝ)
    (h1 : distr ≠ "normal") (h2 : distr ≠ "student") (h3 : distr ≠ "skewt") :
    simulate_bekk param nobs distr eN eS eK = Except.error SimError.valueError := by
  rw [simulate_bekk]
  simp [h1, h2, h3]

/-- Witness for C10 at `distr = "skew-t"` (a plausible misspelling). -/
theorem claim_C10_witness :
    simulate_bekk (⟨0, 0, 0, 0⟩ : BEKKParams 1) 5 "skew-t"
        (fun _ _ => 0) (fun _ _ => 0) (fun _ _ => 0)
      = Except.error SimError.valueError :=
  claim_C10 _ 5 _ _ _ _ (by decide) (by decide) (by decide)

end Simulation

section StationaryLoop

open Kronecker Filter
open scoped ENNReal NNReal Topology

attribute [local instance] Matrix.linftyOpNormedAddCommGroup Matrix.linftyOpNormedRing
  Matrix.linftyOpNormedAlgebra

variable {n : ℕ}

/-- The stability matrix `A⊗A + B⊗B` governing the fixed-point iteration of
`stationary_H`. -/
def kronSum (A B : Matrix (Fin n) (Fin n) ℝ) :
    Matrix (Fin n × Fin n) (Fin n × Fin n) ℝ :=
  A ⊗ₖ A + B ⊗ₖ B

/-- In a complex Banach algebra, `‖a ^ m‖ → 0` whenever the spectral radius of
`a` is below one (from Gelfand's formula). -/
theorem norm_pow_tendsto_zero_of_spectralRadius_lt_one {X : Type} [NormedRing X]
    [NormedAlgebra ℂ X] [CompleteSpace X] (a : X) (h : spectralRadius ℂ a < 1) :
    Tendsto (fun m : ℕ => ‖a ^ m‖) atTop (𝓝 0) := by
  obtain ⟨q, hq1, hq2⟩ := exists_between h
  have hqtop : q ≠ ⊤ := (hq2.trans_le le_top).ne
  lift q to ℝ≥0 using hqtop
  have hg := spectrum.pow_nnnorm_pow_one_div_tendsto_nhds_spectralRadius a
  have hev : ∀ᶠ m : ℕ in atTop, (‖a ^ m‖₊ : ℝ≥0∞) ^ (1 / (m : ℝ)) < (q : ℝ≥0∞) :=
    hg.eventually_lt_const hq1
  have hq1R : (q : ℝ) < 1 := by exact_mod_cast hq2
  have hev2 : ∀ᶠ m : ℕ in atTop, ‖a ^ m‖ ≤ (q : ℝ) ^ m := by
    filter_upwards [hev, eventually_ge_atTop 1] with m hm hm1
    have hmne : (m : ℝ) ≠ 0 := by positivity
    have hx : (‖a ^ m‖₊ : ℝ≥0∞) ≤ (q : ℝ≥0∞) ^ (m : ℝ) := by
      calc (‖a ^ m‖₊ : ℝ≥0∞)
          = ((‖a ^ m‖₊ : ℝ≥0∞) ^ (1 / (m : ℝ))) ^ (m : ℝ) := by
            rw [← ENNReal.rpow_mul, one_div_mul_cancel hmne, ENNReal.rpow_one]
        _ ≤ (q : ℝ≥0∞) ^ (m : ℝ) := ENNReal.rpow_le_rpow hm.le (by positivity)
    rw [ENNReal.rpow_natCast] at hx
    have hx2 : ‖a ^ m‖₊ ≤ q ^ m := by exact_mod_cast hx
    calc ‖a ^ m‖ = ((‖a ^ m‖₊ : ℝ≥0) : ℝ) := rfl
      _ ≤ ((q ^ m : ℝ≥0) : ℝ) := by exact_mod_cast hx2
      _ = (q : ℝ) ^ m := by push_cast; rfl
  exact squeeze_zero' (Eventually.of_forall fun m => norm_nonneg _) hev2
    (tendsto_pow_atTop_nhds_zero_of_lt_one q.coe_nonneg hq1R)

/-- Vectorization of a square matrix (row-major pairing of indices). -/
def vecM (M : Matrix (Fin n) (Fin n) ℝ) : Fin n × Fin n → ℝ := fun p => M p.1 p.2

theorem vecM_conj (A M : Matrix (Fin n) (Fin n) ℝ) :
    vecM (A * M * Aᵀ) = (A ⊗ₖ A) *ᵥ vecM M := by
  funext p
  show (A * M * Aᵀ) p.1 p.2 = ∑ q : Fin n × Fin n, (A ⊗ₖ A) p q * vecM M q
  rw [Fintype.sum_prod_type]
  rw [Matrix.mul_apply]
  simp_rw [Matrix.mul_apply, Finset.sum_mul, Matrix.transpose_apply]
  rw [Finset.sum_comm]
  refine Finset.sum_congr rfl fun k _ => Finset.sum_congr rfl fun l _ => ?_
  simp only [Matrix.kroneckerMap_apply, vecM]
  ring

theorem vecM_L (A B D : Matrix (Fin n) (Fin n) ℝ) :
    vecM (A * D * Aᵀ + B * D * Bᵀ) = kronSum A B *ᵥ vecM D := by
  have hadd : vecM (A * D * Aᵀ + B * D * Bᵀ) = vecM (A * D * Aᵀ) + vecM (B * D * Bᵀ) := by
    funext p
    simp [vecM, Matrix.add_apply]
  rw [hadd, vecM_conj, vecM_conj, kronSum, Matrix.add_mulVec]

theorem statStep_sub (A B C H H' : Matrix (Fin n) (Fin n) ℝ) :
    statStep A B C H - statStep A B C H'
      = A * (H - H') * Aᵀ + B * (H - H') * Bᵀ := by
  rw [statStep, statStep, Matrix.mul_sub, Matrix.sub_mul, Matrix.mul_sub, Matrix.sub_mul]
  abel

theorem vecM_statIter_sub (A B C : Matrix (Fin n) (Fin n) ℝ) (m : ℕ) :
    vecM (statIter A B C (m + 1) - statIter A B C m)
      = kronSum A B ^ m *ᵥ vecM (statIter A B C 1 - statIter A B C 0) := by
  induction m with
  | zero => simp [Matrix.one_mulVec]
  | succ k ih =>
    have hstep : statIter A B C (k + 2) - statIter A B C (k + 1)
        = A * (statIter A B C (k + 1) - statIter A B C k) * Aᵀ
          + B * (statIter A B C (k + 1) - statIter A B C k) * Bᵀ :=
      statStep_sub A B C (statIter A B C (k + 1)) (statIter A B C k)
    rw [hstep, vecM_L, ih, Matrix.mulVec_mulVec, ← pow_succ']

theorem statExit_nonempty (A B C : Matrix (Fin n) (Fin n) ℝ)
    (hρ : spectralRadius ℂ ((kronSum A B).map Complex.ofReal) < 1) :
    (statExit A B C).Nonempty := by
  have hmul : ∀ X Y : Matrix (Fin n × Fin n) (Fin n × Fin n) ℝ,
      (X * Y).map Complex.ofReal = X.map Complex.ofReal * Y.map Complex.ofReal := by
    intro X Y
    funext p q
    simp only [Matrix.map_apply, Matrix.mul_apply]
    push_cast
    rfl
  have hmapow : ∀ m : ℕ,
      (kronSum A B ^ m).map Complex.ofReal = (kronSum A B).map Complex.ofReal ^ m := by
    intro m
    induction m with
    | zero =>
      rw [pow_zero, pow_zero]
      exact Matrix.map_one _ Complex.ofReal_zero Complex.ofReal_one
    | succ k ih => rw [pow_succ, pow_succ, hmul, ih]
  have hrep : ∀ (m : ℕ) (p : Fin n × Fin n),
      ((kronSum A B ^ m *ᵥ vecM (statIter A B C 1 - statIter A B C 0)) p : ℂ)
        = ((kronSum A B).map Complex.ofReal ^ m *ᵥ
            fun q => ((vecM (statIter A B C 1 - statIter A B C 0) q : ℝ) : ℂ)) p := by
    intro m p
    rw [← hmapow]
    show ((kronSum A B ^ m *ᵥ vecM (statIter A B C 1 - statIter A B C 0)) p : ℂ)
      = ∑ q, ((kronSum A B ^ m).map Complex.ofReal p q)
          * ((vecM (statIter A B C 1 - statIter A B C 0) q : ℝ) : ℂ)
    simp only [Matrix.mulVec, Matrix.dotProduct, Matrix.map_apply]
    push_cast
    rfl
  have hnorm0 := norm_pow_tendsto_zero_of_spectralRadius_lt_one
    ((kronSum A B).map Complex.ofReal) hρ
  have hentry : ∀ p : Fin n × Fin n,
      Tendsto (fun m => (kronSum A B ^ m *ᵥ vecM (statIter A B C 1 - statIter A B C 0)) p)
        atTop (𝓝 0) := by
    intro p
    have hb := hnorm0.mul_const
      ‖fun q => ((vecM (statIter A B C 1 - statIter A B C 0) q : ℝ) : ℂ)‖
    rw [zero_mul] at hb
    refine squeeze_zero_norm (fun m => ?_) hb
    calc ‖(kronSum A B ^ m *ᵥ vecM (statIter A B C 1 - statIter A B C 0)) p‖
        = ‖((kronSum A B).map Complex.ofReal ^ m *ᵥ
            fun q => ((vecM (statIter A B C 1 - statIter A B C 0) q : ℝ) : ℂ)) p‖ := by
          rw [← hrep m p, Complex.norm_real]
      _ ≤ ‖(kronSum A B).map Complex.ofReal ^ m *ᵥ
            fun q => ((vecM (statIter A B C 1 - statIter A B C 0) q : ℝ) : ℂ)‖ :=
          norm_le_pi_norm _ p
      _ ≤ ‖(kronSum A B).map Complex.ofReal ^ m‖
            * ‖fun q => ((vecM (statIter A B C 1 - statIter A B C 0) q : ℝ) : ℂ)‖ :=
          Matrix.linfty_opNorm_mulVec _ _
  have hfrobvec : ∀ M : Matrix (Fin n) (Fin n) ℝ,
      frobNorm M = Real.sqrt (∑ p : Fin n × Fin n, vecM M p ^ 2) := by
    intro M
    rw [frobNorm]
    congr 1
    rw [Fintype.sum_prod_type]
    rfl
  have hfrob : Tendsto
      (fun m => frobNorm (statIter A B C (m + 1) - statIter A B C m)) atTop (𝓝 0) := by
    have hrw : ∀ m, frobNorm (statIter A B C (m + 1) - statIter A B C m)
        = Real.sqrt (∑ p : Fin n × Fin n,
            ((kronSum A B ^ m *ᵥ vecM (statIter A B C 1 - statIter A B C 0)) p) ^ 2) := by
      intro m
      rw [hfrobvec, vecM_statIter_sub]
    simp only [hrw]
    have hsum : Tendsto (fun m => ∑ p : Fin n × Fin n,
        ((kronSum A B ^ m *ᵥ vecM (statIter A B C 1 - statIter A B C 0)) p) ^ 2)
        atTop (𝓝 0) := by
      have hz : (0 : ℝ) = ∑ _p : Fin n × Fin n, (0 : ℝ) := by simp
      rw [hz]
      refine tendsto_finset_sum _ fun p _ => ?_
      simpa using (hentry p).pow 2
    have hcomp := (Real.continuous_sqrt.tendsto 0).comp hsum
    simpa [Real.sqrt_zero, Function.comp_def] using hcomp
  have hev : ∀ᶠ m : ℕ in atTop,
      frobNorm (statIter A B C (m + 1) - statIter A B C m) ≤ 1e-3 :=
    hfrob.eventually_le_const (by norm_num)
  obtain ⟨m₀, hm₀⟩ := eventually_atTop.mp hev
  refine ⟨max 1000 (m₀ + 1), le_trans (by norm_num) (le_max_left _ _), ?_⟩
  rw [not_or, not_lt, not_lt]
  constructor
  · have hM : max 1000 (m₀ + 1) - 1 + 1 = max 1000 (m₀ + 1) := by omega
    have hge : m₀ ≤ max 1000 (m₀ + 1) - 1 := by omega
    have := hm₀ (max 1000 (m₀ + 1) - 1) hge
    rwa [hM] at this
  · exact le_max_left _ _

/-- **C6**: the loop of `stationary_H` exits after iteration `m` exactly when
`m ≥ 1000` and the Frobenius-norm change is `≤ 1e-3` (so at least 1000
iterations always run, regardless of early convergence), and when the spectral
radius of `A⊗A + B⊗B` is strictly below one the loop terminates (the exit set
is nonempty). -/
theorem claim_C6 {n : ℕ} (A B C : Matrix (Fin n) (Fin n) ℝ) :
    (∀ m : ℕ, m ∈ statExit A B C ↔
      (1000 ≤ m ∧ frobNorm (statIter A B C m - statIter A B C (m - 1)) ≤ 1e-3)) ∧
    (spectralRadius ℂ ((kronSum A B).map Complex.ofReal) < 1 →
      (statExit A B C).Nonempty) := by
  constructor
  · intro m
    show (1 ≤ m ∧ ¬ (1e-3 < frobNorm (statIter A B C m - statIter A B C (m - 1)) ∨ m < 1000))
      ↔ _
    rw [not_or, not_lt, not_lt]
    constructor
    · rintro ⟨-, hnorm, hm⟩
      exact ⟨hm, hnorm⟩
    · rintro ⟨hm, hnorm⟩
      exact ⟨by omega, hnorm, hm⟩
  · exact statExit_nonempty A B C

/-- Witness for C6 at `A = B = C = 0`, `n = 1`: the spectral radius hypothesis
degenerates to `spectralRadius ℂ 0 = 0 < 1` and the loop terminates. -/
theorem claim_C6_witness :
    (statExit (0 : Matrix (Fin 1) (Fin 1) ℝ) 0 0).Nonempty :=
  (claim_C6 (0 : Matrix (Fin 1) (Fin 1) ℝ) 0 0).2 (by
    have h0 : kronSum (0 : Matrix (Fin 1) (Fin 1) ℝ) 0 = 0 := by
      rw [kronSum, Matrix.zero_kronecker, add_zero]
    rw [h0]
    have hmap : (0 : Matrix (Fin 1 × Fin 1) (Fin 1 × Fin 1) ℝ).map Complex.ofReal = 0 := by
      funext p q
      simp
    rw [hmap, spectrum.spectralRadius_zero]
    norm_num)

end StationaryLoop

end BEKK
